import Mathlib

/-!
Verification development for the `go-ai-codereview` repository.

The repository's core is a concurrent code-review pipeline:

* a `scanner` (the Discoverer) that walks a directory tree and yields the
  candidate file paths (`internal/app/scanner/scanner.go`, current version);
* a `reviewer` engine (JobProducer + WorkerPool) that reads each candidate
  under a 32 KiB size cap, pushes well-formed jobs into a job channel, and
  drains them with a fixed pool of workers, each calling the LLM client once
  per job and emitting exactly one `Result` on a results channel
  (`internal/app/reviewer/engine.go`, current version).

This file shallowly embeds both components.  Pure per-file logic (`readFile`,
the scan callback, extension normalization) is translated into executable
Lean functions.  The concurrent pipeline (producer goroutine, worker pool,
channel closing) is embedded as a small-step transition relation `Step` over
an explicit pipeline state `PState`; goroutine interleavings and the
cancellation signal are the nondeterminism of the relation.  Channels are
modelled as unbounded FIFO buffers: channel capacity in the source only
affects where sends block, never which values are transferred, so the safety
properties proved here are insensitive to it.  File-system behaviour
(open/stat/read results, file contents) is a parameter of the model
(`FileState`, supplied per path by an environment).  Byte strings are
modelled as `List Char` and `int64` sizes as `Int`.
-/

namespace GoAiReview

namespace scanner

/-- Default excluded directory names (exact base-name matching, not paths),
from `defaultExcludeDirs` in the scanner source. -/
def defaultExcludeDirs : List String :=
  [".git", "node_modules", "dist", "vendor", ".idea", ".vscode", ".DS_Store",
   "__pycache__", ".cache", "build"]

/-- The `Scanner` struct.  The Go code stores `includeExts` and `excludeDirs`
as `map[string]struct{}`; only membership is ever queried, so lists with
membership tests are an equivalent embedding.  `gitIgnore` is the optional
compiled `.gitignore` matcher (an opaque path predicate). -/
structure Scanner where
  rootPath : String
  gitIgnore : Option (String → Bool)
  includeExts : List String
  excludeDirs : List String

/-- Outcome of the file-system probes `NewScanner` performs on the root:
the result of `os.Stat(root)` and of the optional `.gitignore` load
(`none` models a missing or unparsable `.gitignore`, which the source
silently ignores). -/
structure RootInfo where
  statErr : Bool
  isDir : Bool
  gitIgnore : Option (String → Bool)

/-- ASCII lower-casing of one character (`strings.ToLower` on the ASCII
range, which covers every extension the tool is used with). -/
def toLowerChar (c : Char) : Char :=
  if 'A' ≤ c ∧ c ≤ 'Z' then Char.ofNat (c.toNat + 32) else c

/-- `strings.ToLower` (ASCII). -/
def asciiToLower (s : String) : String :=
  String.mk (s.data.map toLowerChar)

/-- `strings.HasPrefix(ext, ".")`. -/
def hasDotPrefix (s : String) : Bool :=
  match s.data with
  | '.' :: _ => true
  | _ => false

/-- Extension normalization performed by `NewScanner`: ensure a leading dot,
then lower-case. -/
def normalizeExt (ext : String) : String :=
  let e := if hasDotPrefix ext then ext else "." ++ ext
  asciiToLower e

/-- `NewScanner`: validates that the root exists and is a directory,
normalizes the extension whitelist, and merges extra excluded directories
(the `WithExcludeDirs` option) into the default exclusion set. -/
def NewScanner (root : String) (info : RootInfo) (includeExts : List String)
    (extraExcludeDirs : List String) : Except String Scanner :=
  if info.statErr then .error "stat root failed"
  else if !info.isDir then .error "root is not a directory"
  else .ok
    { rootPath := root
      gitIgnore := info.gitIgnore
      includeExts := includeExts.map normalizeExt
      excludeDirs := defaultExcludeDirs ++ extraExcludeDirs }

/-- Split a character list at every occurrence of `sep` (the list-level core
of `strings.Split`). -/
def splitOnChar (sep : Char) : List Char → List (List Char)
  | [] => [[]]
  | c :: cs =>
    let r := splitOnChar sep cs
    if c = sep then [] :: r
    else
      match r with
      | h :: t => (c :: h) :: t
      | [] => [[c]]

/-- `filepath.Ext`: the suffix beginning at the final dot in the final
slash-separated element of the path; empty if there is no dot. -/
def fileExt (path : String) : String :=
  let base := (splitOnChar '/' path.data).getLastD []
  if base.contains '.' then String.mk ('.' :: (splitOnChar '.' base).getLastD [])
  else ""

/-- `isBinaryFile`: report whether the first 512 bytes contain a NUL byte.
Returns `(isBinary, errored)`; on an open/read failure the Go function
returns `(false, err)`. -/
def isBinaryFile (data : List Char) (openErr : Bool) : Bool × Bool :=
  if openErr then (false, true)
  else ((data.take 512).contains (Char.ofNat 0), false)

/-- `.gitignore` matching: `s.gitIgnore != nil && s.gitIgnore.MatchesPath(rel)`. -/
def matchesIgnore (s : Scanner) (relPath : String) : Bool :=
  match s.gitIgnore with
  | some m => m relPath
  | none => false

/-- The data `filepath.WalkDir` hands to the scan callback for one entry,
plus the file-content information the callback itself probes for the binary
check.  `isDir` is `DirEntry.IsDir`, which is `false` for symlinks.
`walkErr` models a non-nil `err` argument. -/
structure EntryInfo where
  relPath : String
  name : String
  isDir : Bool
  isSymlink : Bool
  walkErr : Bool
  data : List Char
  openErr : Bool

/-- What the callback tells `WalkDir` to do: append the file and continue
(`keep` — return `nil` after `files = append(files, path)`), continue
without appending (`skip` — return `nil`), prune the directory
(`skipDir` — return `filepath.SkipDir`), or abort the walk with an error
(`fail` — the callback source never does this). -/
inductive WalkAction where
  | keep
  | skip
  | skipDir
  | fail (msg : String)
deriving DecidableEq

/-- The body of the `filepath.WalkDir` callback in `Scanner.Scan`,
check for check in source order. -/
def scanCallback (s : Scanner) (e : EntryInfo) : WalkAction :=
  -- 1. entries whose walk reported an error are skipped, scan continues
  if e.walkErr then .skip
  -- 2. the root itself (relative path ".") is skipped
  else if e.relPath == "." then .skip
  -- 3. symlinks are skipped entirely (DirEntry.IsDir is false for symlinks,
  --    so the SkipDir arm is unreachable, as in the source)
  else if e.isSymlink then (if e.isDir then .skipDir else .skip)
  -- 4. exact base-name match against the exclusion set
  else if s.excludeDirs.contains e.name then (if e.isDir then .skipDir else .skip)
  -- 5. .gitignore rules
  else if matchesIgnore s e.relPath then (if e.isDir then .skipDir else .skip)
  -- 6. directories themselves are not collected; descend
  else if e.isDir then .skip
  -- 7. extension whitelist (case-insensitive), only when non-empty
  else if !s.includeExts.isEmpty &&
      !(s.includeExts.contains (asciiToLower (fileExt (s.rootPath ++ "/" ++ e.relPath)))) then .skip
  -- 8. binary-content heuristic; the error return of isBinaryFile is discarded
  else if (isBinaryFile e.data e.openErr).1 then .skip
  else .keep

mutual
/-- A node of the scanned file tree.  `walkErr` on a file models `WalkDir`
passing a non-nil error for the entry; on a directory it models a `ReadDir`
failure (the callback is invoked a second time with the error and the
subtree is not walked).  `openErr` models the binary-check `os.Open`
failing. -/
inductive FsNode where
  | file (name : String) (data : List Char) (walkErr : Bool) (openErr : Bool) : FsNode
  | dir (name : String) (walkErr : Bool) (children : FsForest) : FsNode
  | symlink (name : String) : FsNode

/-- A list of sibling tree nodes, in the (lexical) order `WalkDir` visits
them. -/
inductive FsForest where
  | nil : FsForest
  | cons (head : FsNode) (tail : FsForest) : FsForest
end

/-- Base name of a node (what `DirEntry.Name` returns). -/
def nodeName : FsNode → String
  | .file name _ _ _ => name
  | .dir name _ _ => name
  | .symlink name => name

/-- Relative path of a child entry: `filepath.Rel(root, filepath.Join(parent, name))`. -/
def relJoin (parentRel name : String) : String :=
  if parentRel == "" then name else parentRel ++ "/" ++ name

mutual
/-- Walk one entry, mirroring `filepath.WalkDir` driving `scanCallback`:
the callback sees the entry, `keep` appends the full path, `skipDir` prunes,
`fail` aborts the walk with an error.  For a directory whose `ReadDir`
fails, `WalkDir` invokes the callback a second time with the error and the
subtree is not walked. -/
def walkNode (s : Scanner) (rel : String) : FsNode → Except String (List String)
  | .file name data wErr oErr =>
    match scanCallback s ⟨rel, name, false, false, wErr, data, oErr⟩ with
    | .fail m => .error m
    | .keep => .ok [s.rootPath ++ "/" ++ rel]
    | _ => .ok []
  | .symlink name =>
    match scanCallback s ⟨rel, name, false, true, false, [], false⟩ with
    | .fail m => .error m
    | .keep => .ok [s.rootPath ++ "/" ++ rel]
    | _ => .ok []
  | .dir name wErr children =>
    match scanCallback s ⟨rel, name, true, false, false, [], false⟩ with
    | .fail m => .error m
    | .skipDir => .ok []
    | _ =>
      if wErr then
        match scanCallback s ⟨rel, name, true, false, true, [], false⟩ with
        | .fail m => .error m
        | _ => .ok []
      else walkList s rel children

/-- Walk the children of a directory in order, concatenating results. -/
def walkList (s : Scanner) (parentRel : String) : FsForest → Except String (List String)
  | .nil => .ok []
  | .cons c cs => do
    let l ← walkNode s (relJoin parentRel (nodeName c)) c
    let ls ← walkList s parentRel cs
    .ok (l ++ ls)
end

/-- `Scanner.Scan`: run the walk from the root.  `WalkDir` visits the root
entry itself first (relative path "."); the callback skips it, and an lstat
error on the root (`rootWalkErr`) reaches the callback, is swallowed, and
ends the walk with no entries. -/
def Scanner.Scan (s : Scanner) (rootName : String) (rootWalkErr : Bool)
    (tree : FsForest) : Except String (List String) :=
  match scanCallback s ⟨".", rootName, true, false, rootWalkErr, [], false⟩ with
  | .fail m => .error m
  | .skipDir => .ok []
  | _ => if rootWalkErr then .ok [] else walkList s "" tree

/-- A concrete scanner: root "r", no gitignore, whitelist [".go"], default
exclusions. -/
def sNoIg : Scanner := ⟨"r", none, [".go"], defaultExcludeDirs⟩

end scanner

namespace reviewer

/-- `MaxFileSize = 32 * 1024`: the review size cap in bytes. -/
def MaxFileSize : Nat := 32 * 1024

/-- `DefaultConcurrency = 5`. -/
def DefaultConcurrency : Int := 5

/-- `DefaultLevel = 3`. -/
def DefaultLevel : Int := 3

/-- `MinLevel = 1`. -/
def MinLevel : Int := 1

/-- `MaxLevel = 6`. -/
def MaxLevel : Int := 6

/-- `llm.ReviewResult`, the structured review returned by the LLM client.
The pipeline never inspects it.  The `importance` float64 field is omitted
(floating point is outside the embedding); no claim touches it. -/
structure ReviewResult where
  score : Int
  summary : String
  pros : List String
  issues : List String
  suggestion : String
deriving DecidableEq

/-- `Job`: a file to be reviewed (path and in-memory content). -/
structure Job where
  filePath : String
  content : List Char
deriving DecidableEq

/-- `SkipReason`; the empty string is `SkipReason.none`. -/
inductive SkipReason where
  | none
  | tooLarge
  | readErr
deriving DecidableEq

/-- `Result`: the terminal record for one file.  `fileSize` is `int64`,
zero-valued when a construction site does not set it. -/
structure Result where
  filePath : String
  fileSize : Int
  review : Option ReviewResult
  error : Option String
  skipReason : SkipReason
deriving DecidableEq

/-- The behaviour of `llm.Client.ReviewCode(ctx, path, content, level)`:
a function from the call arguments to `(*llm.ReviewResult, error)`.  The
context argument is dropped: the model treats each call as completing
atomically (see the `Step` relation). -/
def Client : Type :=
  String → List Char → Int → Option ReviewResult × Option String

/-- The `Engine` struct. -/
structure Engine where
  client : Client
  concurrency : Int
  level : Int

/-- `NewEngine`: rejects a nil client, replaces a non-positive concurrency
by `DefaultConcurrency`, and clamps an out-of-range level to `DefaultLevel`. -/
def NewEngine (client : Option Client) (concurrency level : Int) :
    Except String Engine :=
  match client with
  | Option.none => .error "LLM client must not be nil"
  | some c =>
    let concurrency := if concurrency ≤ 0 then DefaultConcurrency else concurrency
    let level := if level < MinLevel ∨ level > MaxLevel then DefaultLevel else level
    .ok { client := c, concurrency := concurrency, level := level }

/-- What the file system does for one path: whether `os.Open` fails, whether
`File.Stat` fails, the stat-reported size, whether the limited `ReadAll`
fails, and the on-disk content at read time.  Keeping `statSize` and `data`
independent models a file changing between stat and read. -/
structure FileState where
  openErr : Bool
  statErr : Bool
  statSize : Int
  readErr : Bool
  data : List Char

/-- The four return values of `Engine.readFile`. -/
structure ReadRet where
  content : List Char
  size : Int
  skip : SkipReason
  err : Option String
deriving DecidableEq

/-- `Engine.readFile`: open, stat, reject oversized files by stat size, read
at most `MaxFileSize + 1` bytes through `io.LimitReader`, and re-check the
actually-read size against the cap (TOCTOU double check).  Error messages
are abbreviated; the source interpolates sizes into them. -/
def readFile (fs : FileState) : ReadRet :=
  if fs.openErr then ⟨[], 0, .readErr, some "cannot open file"⟩
  else if fs.statErr then ⟨[], 0, .readErr, some "cannot stat file"⟩
  else if (MaxFileSize : Int) < fs.statSize then
    ⟨[], fs.statSize, .tooLarge, some "file too large, skipped"⟩
  else if fs.readErr then ⟨[], fs.statSize, .readErr, some "reading file failed"⟩
  else
    let content := fs.data.take (MaxFileSize + 1)
    let actualSize : Int := content.length
    if (MaxFileSize : Int) < actualSize then
      ⟨[], actualSize, .tooLarge, some "file too large, skipped"⟩
    else ⟨content, actualSize, .none, Option.none⟩

/-- The `Result` the producer emits when `readFile` fails for `file`:
`Result{FilePath: file, FileSize: fileSize, Error: err, SkipReason: skipReason}`. -/
def mkProdResult (file : String) (r : ReadRet) : Result :=
  ⟨file, r.size, Option.none, r.err, r.skip⟩

/-- The `Result` a worker emits after `ReviewCode` returns `out`:
`Result{FilePath: job.FilePath, Review: review, Error: err}` — note that
`FileSize` and `SkipReason` are left at their zero values. -/
def mkWorkerResult (j : Job) (out : Option ReviewResult × Option String) : Result :=
  ⟨j.filePath, 0, out.1, out.2, SkipReason.none⟩

/-- Control state of the producer goroutine.  `loop pending` is the top of
the `for _, file := range files` loop with `pending` not yet handled;
`emitR res rest` is the `select` sending an early skip/error `Result` on the
results channel; `sendJ j rest` is the `select` sending a job on the jobs
channel; `pdone` is after the producer returned (its deferred
`close(jobs)` has run). -/
inductive PCtl where
  | loop (pending : List String)
  | emitR (res : Result) (pending : List String)
  | sendJ (j : Job) (pending : List String)
  | pdone
deriving DecidableEq

/-- Control state of one worker goroutine.  `idle` is the blocking receive
of `for job := range jobs`; `busy j` holds a dequeued job at the
cancellation check / `ReviewCode` call; `deliver res` is the `select`
sending the result; `wdone` is after the worker returned (its `wg.Done`
has run). -/
inductive WCtl where
  | idle
  | busy (j : Job)
  | deliver (res : Result)
  | wdone
deriving DecidableEq

/-- The run environment: what the file system does for each path.  The
analysis behaviour lives in `Engine.client`. -/
structure Env where
  fsys : String → FileState

/-- Global pipeline state.  `jobsBuf` and `emitted` are the jobs-channel
buffer and the sequence of values sent on the results channel (unbounded
buffers: capacities only affect blocking).  `workers` is the multiset of
worker control states.  `calls` and `dequeued` are ghost logs of the
`ReviewCode` invocations and of the jobs workers have dequeued. -/
structure PState where
  pctl : PCtl
  jobsClosed : Bool
  jobsBuf : List Job
  workers : Multiset WCtl
  emitted : List Result
  rclosed : Bool
  cancelled : Bool
  calls : List Job
  dequeued : List Job

/-- The state `Engine.Start` sets up: producer at the head of `files`,
`concurrency` idle workers, channels open and empty. -/
def initState (e : Engine) (files : List String) : PState where
  pctl := .loop files
  jobsClosed := false
  jobsBuf := []
  workers := Multiset.replicate e.concurrency.toNat WCtl.idle
  emitted := []
  rclosed := false
  cancelled := false
  calls := []
  dequeued := []

/-- One interleaving step of the pipeline.  Each constructor is one atomic
action of the Go code between suspension points:

* `cancel` — the external cancellation signal fires (at most once).
* `prodReadErr` / `prodReadOk` — the producer passes its top-of-loop
  `select`-with-`default` cancellation check (which it can only do while the
  context is live) and runs `readFile`; on error it moves to the
  result-send `select`, otherwise to the job-send `select`.
* `prodCancelTop` — the context is cancelled, so the ready `ctx.Done()` arm
  of the top-of-loop `select` fires and the producer returns.
* `prodFinish` — the file list is exhausted; the producer returns.
  Producer return runs the deferred `close(jobs)`.
* `prodEmit` / `prodEmitCancel` — the result-send `select`: the send is
  always ready, the `ctx.Done()` arm only when cancelled (both arms ready
  under cancellation: Go picks nondeterministically, and returning runs
  `close(jobs)`).
* `prodSend` / `prodSendCancel` — likewise for the job-send `select`.
* `wDequeue` — `for job := range jobs` receives a buffered job (possible
  whether or not the channel is already closed, and with no cancellation
  check, as in the source).
* `wExit` — the jobs channel is closed and drained, so the range loop ends
  and the worker returns.
* `wCancelAfterDequeue` — the post-dequeue `select`-with-`default` sees the
  cancelled context and the worker returns, dropping the dequeued job.
* `wCall` — the post-dequeue check passes (context live at that instant)
  and `ReviewCode` runs to completion, producing the result to send.
* `wDeliver` / `wDeliverCancel` — the result-send `select`, as for the
  producer; the cancelled arm drops the computed result and the worker
  returns.
* `closeResults` — `wg.Wait()` returns once every worker has exited, and
  the closer goroutine closes the results channel (only possible once). -/
inductive Step (e : Engine) (env : Env) : PState → PState → Prop where
  | cancel (s : PState) :
      s.cancelled = false →
      Step e env s { s with cancelled := true }
  | prodReadErr (s : PState) (f : String) (rest : List String) (m : String) :
      s.pctl = .loop (f :: rest) → s.cancelled = false →
      (readFile (env.fsys f)).err = some m →
      Step e env s { s with pctl := .emitR (mkProdResult f (readFile (env.fsys f))) rest }
  | prodReadOk (s : PState) (f : String) (rest : List String) :
      s.pctl = .loop (f :: rest) → s.cancelled = false →
      (readFile (env.fsys f)).err = Option.none →
      Step e env s { s with pctl := .sendJ ⟨f, (readFile (env.fsys f)).content⟩ rest }
  | prodCancelTop (s : PState) (f : String) (rest : List String) :
      s.pctl = .loop (f :: rest) → s.cancelled = true →
      Step e env s { s with pctl := .pdone, jobsClosed := true }
  | prodFinish (s : PState) :
      s.pctl = .loop [] →
      Step e env s { s with pctl := .pdone, jobsClosed := true }
  | prodEmit (s : PState) (res : Result) (rest : List String) :
      s.pctl = .emitR res rest →
      Step e env s { s with pctl := .loop rest, emitted := s.emitted ++ [res] }
  | prodEmitCancel (s : PState) (res : Result) (rest : List String) :
      s.pctl = .emitR res rest → s.cancelled = true →
      Step e env s { s with pctl := .pdone, jobsClosed := true }
  | prodSend (s : PState) (j : Job) (rest : List String) :
      s.pctl = .sendJ j rest →
      Step e env s { s with pctl := .loop rest, jobsBuf := s.jobsBuf ++ [j] }
  | prodSendCancel (s : PState) (j : Job) (rest : List String) :
      s.pctl = .sendJ j rest → s.cancelled = true →
      Step e env s { s with pctl := .pdone, jobsClosed := true }
  | wDequeue (s : PState) (j : Job) (buf : List Job) :
      WCtl.idle ∈ s.workers → s.jobsBuf = j :: buf →
      Step e env s { s with workers := WCtl.busy j ::ₘ s.workers.erase WCtl.idle,
                            jobsBuf := buf, dequeued := s.dequeued ++ [j] }
  | wExit (s : PState) :
      WCtl.idle ∈ s.workers → s.jobsClosed = true → s.jobsBuf = [] →
      Step e env s { s with workers := WCtl.wdone ::ₘ s.workers.erase WCtl.idle }
  | wCancelAfterDequeue (s : PState) (j : Job) :
      WCtl.busy j ∈ s.workers → s.cancelled = true →
      Step e env s { s with workers := WCtl.wdone ::ₘ s.workers.erase (WCtl.busy j) }
  | wCall (s : PState) (j : Job) :
      WCtl.busy j ∈ s.workers → s.cancelled = false →
      Step e env s { s with
        workers := WCtl.deliver (mkWorkerResult j (e.client j.filePath j.content e.level))
          ::ₘ s.workers.erase (WCtl.busy j),
        calls := s.calls ++ [j] }
  | wDeliver (s : PState) (res : Result) :
      WCtl.deliver res ∈ s.workers →
      Step e env s { s with workers := WCtl.idle ::ₘ s.workers.erase (WCtl.deliver res),
                            emitted := s.emitted ++ [res] }
  | wDeliverCancel (s : PState) (res : Result) :
      WCtl.deliver res ∈ s.workers → s.cancelled = true →
      Step e env s { s with workers := WCtl.wdone ::ₘ s.workers.erase (WCtl.deliver res) }
  | closeResults (s : PState) :
      (∀ w ∈ s.workers, w = WCtl.wdone) → s.rclosed = false →
      Step e env s { s with rclosed := true }

/-- States reachable from `Engine.Start`'s state by some interleaving. -/
def Reachable (e : Engine) (env : Env) (files : List String) (s : PState) : Prop :=
  Relation.ReflTransGen (Step e env) (initState e files) s

/-- The file path a worker control state is responsible for, if any. -/
def wPaths : WCtl → Multiset String
  | .busy j => {j.filePath}
  | .deliver res => {res.filePath}
  | _ => 0

/-- The file paths the producer is still responsible for. -/
def pcPaths : PCtl → List String
  | .loop pending => pending
  | .emitR res rest => res.filePath :: rest
  | .sendJ j rest => j.filePath :: rest
  | .pdone => []

/-- Every path currently accounted for somewhere in the pipeline: already
emitted, buffered as a job, held by a worker, or still with the producer. -/
def ownedPaths (s : PState) : Multiset String :=
  (↑(s.emitted.map Result.filePath) : Multiset String)
    + (↑(s.jobsBuf.map Job.filePath) : Multiset String)
    + s.workers.bind wPaths
    + (↑(pcPaths s.pctl) : Multiset String)

/-- A well-formed job: its path read without error and its content is
exactly what `readFile` returned for that path. -/
def JobOk (env : Env) (j : Job) : Prop :=
  (readFile (env.fsys j.filePath)).err = Option.none ∧
  j.content = (readFile (env.fsys j.filePath)).content

/-- All the places a job can live in a pipeline state (including the ghost
logs). -/
def JobInState (s : PState) (j : Job) : Prop :=
  j ∈ s.jobsBuf ∨ WCtl.busy j ∈ s.workers ∨ (∃ rest, s.pctl = PCtl.sendJ j rest) ∨
    j ∈ s.calls ∨ j ∈ s.dequeued

/-- A well-formed result: either the producer's early skip/error result for
its path, or a worker result for a well-formed job (in which case its
`fileSize` is the zero value). -/
def ResOk (e : Engine) (env : Env) (r : Result) : Prop :=
  (r = mkProdResult r.filePath (readFile (env.fsys r.filePath)) ∧
    (readFile (env.fsys r.filePath)).err ≠ Option.none)
  ∨ (∃ j, JobOk env j ∧ r = mkWorkerResult j (e.client j.filePath j.content e.level))

/-- All the places a result can live in a pipeline state. -/
def ResInState (s : PState) (r : Result) : Prop :=
  r ∈ s.emitted ∨ (∃ rest, s.pctl = PCtl.emitR r rest) ∨ WCtl.deliver r ∈ s.workers

/-- The inductive invariant of the pipeline. -/
structure Inv (e : Engine) (env : Env) (files : List String) (s : PState) : Prop where
  workersCard : Multiset.card s.workers = e.concurrency.toNat
  jcIff : s.jobsClosed = true ↔ s.pctl = PCtl.pdone
  ownsLe : ownedPaths s ≤ (↑files : Multiset String)
  ownsEq : s.cancelled = false → ownedPaths s = (↑files : Multiset String)
  rclosedW : s.rclosed = true → ∀ w ∈ s.workers, w = WCtl.wdone
  wdoneJc : s.cancelled = false → WCtl.wdone ∈ s.workers → s.jobsClosed = true
  wdoneBuf : s.cancelled = false → (∀ w ∈ s.workers, w = WCtl.wdone) →
    s.workers ≠ 0 → s.jobsBuf = []
  jobsOk : ∀ j, JobInState s j → JobOk env j
  resOk : ∀ r, ResInState s r → ResOk e env r
  dequeuedIn : ∀ j ∈ s.dequeued, j.filePath ∈ files


/-- An LLM client whose every call fails (concrete behaviour for runs). -/
def clientFail : Client := fun _ _ _ => (Option.none, some "analysis failed")

/-- A concrete single-worker engine. -/
def engOne : Engine := ⟨clientFail, 1, 3⟩

/-- A small readable file: 5 bytes, stat and read agree. -/
def fsHello : FileState := ⟨false, false, 5, false, ['h', 'e', 'l', 'l', 'o']⟩

/-- A file system where every path is the small readable file. -/
def envHello : Env := ⟨fun _ => fsHello⟩

/-- The job the producer builds for path "a" under `envHello`. -/
def jobA : Job := ⟨"a", ['h', 'e', 'l', 'l', 'o']⟩

/-- The result a worker emits for `jobA` under `clientFail`. -/
def resFail : Result := ⟨"a", 0, Option.none, some "analysis failed", SkipReason.none⟩

/-- A file whose stat-reported size is one byte over the cap. -/
def fsBig : FileState := ⟨false, false, 32769, false, []⟩

/-- A file system where every path is the oversized file. -/
def envBig : Env := ⟨fun _ => fsBig⟩

/-- The producer's skip result for the oversized file at path "big". -/
def resBig : Result := ⟨"big", 32769, Option.none, some "file too large, skipped",
  SkipReason.tooLarge⟩

/-- Final state of a complete uncancelled single-file run under `engOne`,
`envHello` with `clientFail`. -/
def sDoneA : PState :=
  ⟨.pdone, true, [], {WCtl.wdone}, [resFail], true, false, [jobA], [jobA]⟩

/-- A state where cancellation made the single worker exit after dequeuing,
every worker is done and the results channel has been closed, while the
producer is still at the top of its loop with "b" pending. -/
def sCancelB : PState :=
  ⟨.loop ["b"], false, [], {WCtl.wdone}, [], true, true, [], [jobA]⟩

/-- A terminal cancelled state in which the dequeued `jobA` was dropped:
results closed, nothing emitted. -/
def sDropC : PState :=
  ⟨.pdone, true, [], {WCtl.wdone}, [], true, true, [], [jobA]⟩

/-- Final state of a complete uncancelled run over the oversized file. -/
def sBigD : PState :=
  ⟨.pdone, true, [], {WCtl.wdone}, [resBig], true, false, [], []⟩

theorem bind_eq_zero {α β : Type _} (m : Multiset α) (f : α → Multiset β)
    (h : ∀ a ∈ m, f a = 0) : m.bind f = 0 := by
  induction m using Multiset.induction with
  | empty => simp
  | cons a m ih =>
    rw [Multiset.cons_bind, h a (Multiset.mem_cons_self a m),
      ih fun b hb => h b (Multiset.mem_cons_of_mem hb)]
    simp

theorem mem_replace {m : Multiset WCtl} {a b w : WCtl} [DecidableEq WCtl]
    (h : w ∈ b ::ₘ m.erase a) : w = b ∨ w ∈ m := by
  rcases Multiset.mem_cons.mp h with h | h
  · exact Or.inl h
  · exact Or.inr (Multiset.mem_of_mem_erase h)

theorem step_cancel_mono {e : Engine} {env : Env} {s s' : PState}
    (h : Step e env s s') (hc : s.cancelled = true) : s'.cancelled = true := by
  cases h <;> first | rfl | exact hc

theorem bind_replace (m : Multiset WCtl) (a b : WCtl) (h : a ∈ m) :
    (b ::ₘ m.erase a).bind wPaths + wPaths a = m.bind wPaths + wPaths b := by
  conv_rhs => rw [← Multiset.cons_erase h]
  rw [Multiset.cons_bind, Multiset.cons_bind]
  abel

/-- Each step either conserves the owned-path multiset, or (only once the
run is cancelled) drops some of it. -/
theorem step_owns {e : Engine} {env : Env} {s s' : PState} (h : Step e env s s') :
    ownedPaths s' = ownedPaths s ∨
      (s'.cancelled = true ∧ ownedPaths s' ≤ ownedPaths s) := by
  cases h with
  | cancel hc => exact Or.inl rfl
  | prodReadErr f rest m h1 h2 h3 =>
    left; simp [ownedPaths, h1, pcPaths, mkProdResult]
  | prodReadOk f rest h1 h2 h3 =>
    left; simp [ownedPaths, h1, pcPaths]
  | prodCancelTop f rest h1 h2 =>
    refine Or.inr ⟨h2, ?_⟩
    simp only [ownedPaths, h1, pcPaths]
    simp only [pcPaths, Multiset.coe_nil, add_zero]
    exact self_le_add_right _ _
  | prodFinish h1 =>
    left; simp [ownedPaths, h1, pcPaths]
  | prodEmit res rest h1 =>
    left
    simp only [ownedPaths, h1, pcPaths, List.map_append, List.map_cons, List.map_nil,
      Multiset.coe_nil, ← Multiset.coe_add, ← Multiset.cons_coe, ← Multiset.singleton_add,
      Multiset.coe_singleton]
    abel
  | prodEmitCancel res rest h1 h2 =>
    refine Or.inr ⟨h2, ?_⟩
    simp only [ownedPaths, h1, pcPaths]
    simp only [pcPaths, Multiset.coe_nil, add_zero]
    exact self_le_add_right _ _
  | prodSend j rest h1 =>
    left
    simp only [ownedPaths, h1, pcPaths, List.map_append, List.map_cons, List.map_nil,
      Multiset.coe_nil, ← Multiset.coe_add, ← Multiset.cons_coe, ← Multiset.singleton_add,
      Multiset.coe_singleton]
    abel
  | prodSendCancel j rest h1 h2 =>
    refine Or.inr ⟨h2, ?_⟩
    simp only [ownedPaths, h1, pcPaths]
    simp only [pcPaths, Multiset.coe_nil, add_zero]
    exact self_le_add_right _ _
  | wDequeue j buf h1 h2 =>
    left
    have hb := bind_replace s.workers WCtl.idle (WCtl.busy j) h1
    simp only [wPaths, add_zero] at hb
    simp only [ownedPaths, h2, List.map_cons, hb]
    simp only [← Multiset.coe_add, ← Multiset.cons_coe, ← Multiset.singleton_add,
      Multiset.coe_singleton]
    abel
  | wExit h1 h2 h3 =>
    left
    have hb := bind_replace s.workers WCtl.idle WCtl.wdone h1
    simp only [wPaths, add_zero] at hb
    simp only [ownedPaths, hb]
  | wCancelAfterDequeue j h1 h2 =>
    refine Or.inr ⟨h2, ?_⟩
    have hb := bind_replace s.workers (WCtl.busy j) WCtl.wdone h1
    simp only [wPaths, add_zero] at hb
    refine Multiset.le_iff_exists_add.mpr ⟨{j.filePath}, ?_⟩
    simp only [ownedPaths, ← hb]
    abel
  | wCall j h1 h2 =>
    left
    have hb := bind_replace s.workers (WCtl.busy j) (WCtl.deliver
      (mkWorkerResult j (e.client j.filePath j.content e.level))) h1
    simp only [wPaths, mkWorkerResult] at hb
    have hb' := add_right_cancel hb
    simp only [ownedPaths, mkWorkerResult, hb']
  | wDeliver res h1 =>
    left
    have hb := bind_replace s.workers (WCtl.deliver res) WCtl.idle h1
    simp only [wPaths, add_zero] at hb
    simp only [ownedPaths, ← hb, List.map_append, List.map_cons, List.map_nil]
    simp only [Multiset.coe_nil, ← Multiset.coe_add, ← Multiset.cons_coe,
      ← Multiset.singleton_add, Multiset.coe_singleton]
    abel
  | wDeliverCancel res h1 h2 =>
    refine Or.inr ⟨h2, ?_⟩
    have hb := bind_replace s.workers (WCtl.deliver res) WCtl.wdone h1
    simp only [wPaths, add_zero] at hb
    refine Multiset.le_iff_exists_add.mpr ⟨{res.filePath}, ?_⟩
    simp only [ownedPaths, ← hb]
    abel
  | closeResults h1 h2 => exact Or.inl rfl

theorem card_replace {m : Multiset WCtl} {a : WCtl} (b : WCtl) (h : a ∈ m) :
    Multiset.card (b ::ₘ m.erase a) = Multiset.card m := by
  rw [Multiset.card_cons, Multiset.card_erase_of_mem h]
  exact Nat.succ_pred_eq_of_pos (Multiset.card_pos_iff_exists_mem.mpr ⟨a, h⟩)

theorem owns_buf_le (s : PState) :
    (↑(s.jobsBuf.map Job.filePath) : Multiset String) ≤ ownedPaths s := by
  simp only [ownedPaths]
  calc (↑(s.jobsBuf.map Job.filePath) : Multiset String)
      ≤ ↑(s.emitted.map Result.filePath) + ↑(s.jobsBuf.map Job.filePath) :=
        Multiset.le_add_left _ _
    _ ≤ ↑(s.emitted.map Result.filePath) + ↑(s.jobsBuf.map Job.filePath)
          + s.workers.bind wPaths := Multiset.le_add_right _ _
    _ ≤ ↑(s.emitted.map Result.filePath) + ↑(s.jobsBuf.map Job.filePath)
          + s.workers.bind wPaths + ↑(pcPaths s.pctl) := Multiset.le_add_right _ _

theorem owns_emitted_le (s : PState) :
    (↑(s.emitted.map Result.filePath) : Multiset String) ≤ ownedPaths s := by
  simp only [ownedPaths]
  calc (↑(s.emitted.map Result.filePath) : Multiset String)
      ≤ ↑(s.emitted.map Result.filePath) + ↑(s.jobsBuf.map Job.filePath) :=
        Multiset.le_add_right _ _
    _ ≤ ↑(s.emitted.map Result.filePath) + ↑(s.jobsBuf.map Job.filePath)
          + s.workers.bind wPaths := Multiset.le_add_right _ _
    _ ≤ ↑(s.emitted.map Result.filePath) + ↑(s.jobsBuf.map Job.filePath)
          + s.workers.bind wPaths + ↑(pcPaths s.pctl) := Multiset.le_add_right _ _

theorem jc_false {e : Engine} {env : Env} {files : List String} {s : PState}
    (hinv : Inv e env files s) {x : PCtl} (h1 : s.pctl = x)
    (hx : x ≠ PCtl.pdone) : s.jobsClosed = false := by
  cases hjb : s.jobsClosed
  · rfl
  · have hp := hinv.jcIff.mp hjb
    rw [h1] at hp
    exact absurd hp hx

theorem owns_init (e : Engine) (files : List String) :
    ownedPaths (initState e files) = (↑files : Multiset String) := by
  have hb : (Multiset.replicate e.concurrency.toNat WCtl.idle).bind wPaths = 0 :=
    bind_eq_zero _ _ fun a ha => by rw [Multiset.eq_of_mem_replicate ha]; rfl
  simp [ownedPaths, initState, pcPaths, hb]

/-- The invariant holds in the initial state. -/
theorem inv_init (e : Engine) (env : Env) (files : List String) :
    Inv e env files (initState e files) where
  workersCard := by simp [initState]
  jcIff := by simp [initState]
  ownsLe := le_of_eq (owns_init e files)
  ownsEq := fun _ => owns_init e files
  rclosedW := by intro hr; simp [initState] at hr
  wdoneJc := by
    intro _ hw
    exact absurd (Multiset.eq_of_mem_replicate hw) (by simp)
  wdoneBuf := fun _ _ _ => rfl
  jobsOk := by
    rintro j (hj | hj | ⟨r, hr⟩ | hj | hj)
    · simp [initState] at hj
    · exact absurd (Multiset.eq_of_mem_replicate hj) (by simp)
    · simp [initState] at hr
    · simp [initState] at hj
    · simp [initState] at hj
  resOk := by
    rintro r (hr | ⟨rr, hr⟩ | hr)
    · simp [initState] at hr
    · simp [initState] at hr
    · exact absurd (Multiset.eq_of_mem_replicate hr) (by simp)
  dequeuedIn := by simp [initState]

/-- The invariant is preserved by every step. -/
theorem inv_step {e : Engine} {env : Env} {files : List String} {s s' : PState}
    (hinv : Inv e env files s) (h : Step e env s s') : Inv e env files s' := by
  have hLe : ownedPaths s' ≤ (↑files : Multiset String) := by
    rcases step_owns h with he | ⟨_, hle⟩
    · rw [he]; exact hinv.ownsLe
    · exact le_trans hle hinv.ownsLe
  have hEq : s'.cancelled = false → ownedPaths s' = (↑files : Multiset String) := by
    intro hc
    have hc0 : s.cancelled = false := by
      cases hcs : s.cancelled
      · rfl
      · rw [step_cancel_mono h hcs] at hc; cases hc
    rcases step_owns h with he | ⟨hc', _⟩
    · rw [he]; exact hinv.ownsEq hc0
    · rw [hc'] at hc; cases hc
  cases h with
  | cancel hc =>
    refine ⟨hinv.workersCard, hinv.jcIff, hLe, hEq, hinv.rclosedW, ?_, ?_,
      hinv.jobsOk, hinv.resOk, hinv.dequeuedIn⟩
    · intro hcc; simp at hcc
    · intro hcc; simp at hcc
  | prodReadErr f rest m h1 h2 h3 =>
    have hjc := jc_false hinv h1 (by simp)
    refine ⟨hinv.workersCard, by simp [hjc], hLe, hEq, hinv.rclosedW,
      hinv.wdoneJc, hinv.wdoneBuf, ?_, ?_, hinv.dequeuedIn⟩
    · rintro j (hj | hj | ⟨r, hr⟩ | hj | hj)
      · exact hinv.jobsOk j (Or.inl hj)
      · exact hinv.jobsOk j (Or.inr (Or.inl hj))
      · simp at hr
      · exact hinv.jobsOk j (Or.inr (Or.inr (Or.inr (Or.inl hj))))
      · exact hinv.jobsOk j (Or.inr (Or.inr (Or.inr (Or.inr hj))))
    · rintro r (hr | ⟨rr, hr⟩ | hr)
      · exact hinv.resOk r (Or.inl hr)
      · simp only [PCtl.emitR.injEq] at hr
        obtain ⟨hres, -⟩ := hr
        subst hres
        exact Or.inl ⟨rfl, by simp [mkProdResult, h3]⟩
      · exact hinv.resOk r (Or.inr (Or.inr hr))
  | prodReadOk f rest h1 h2 h3 =>
    have hjc := jc_false hinv h1 (by simp)
    refine ⟨hinv.workersCard, by simp [hjc], hLe, hEq, hinv.rclosedW,
      hinv.wdoneJc, hinv.wdoneBuf, ?_, ?_, hinv.dequeuedIn⟩
    · rintro j (hj | hj | ⟨r, hr⟩ | hj | hj)
      · exact hinv.jobsOk j (Or.inl hj)
      · exact hinv.jobsOk j (Or.inr (Or.inl hj))
      · simp only [PCtl.sendJ.injEq] at hr
        obtain ⟨hj', -⟩ := hr
        subst hj'
        exact ⟨h3, rfl⟩
      · exact hinv.jobsOk j (Or.inr (Or.inr (Or.inr (Or.inl hj))))
      · exact hinv.jobsOk j (Or.inr (Or.inr (Or.inr (Or.inr hj))))
    · rintro r (hr | ⟨rr, hr⟩ | hr)
      · exact hinv.resOk r (Or.inl hr)
      · simp at hr
      · exact hinv.resOk r (Or.inr (Or.inr hr))
  | prodCancelTop f rest h1 h2 =>
    refine ⟨hinv.workersCard, by simp, hLe, hEq, hinv.rclosedW,
      fun _ _ => rfl, ?_, ?_, ?_, hinv.dequeuedIn⟩
    · intro hc _ _; simp [h2] at hc
    · rintro j (hj | hj | ⟨r, hr⟩ | hj | hj)
      · exact hinv.jobsOk j (Or.inl hj)
      · exact hinv.jobsOk j (Or.inr (Or.inl hj))
      · simp at hr
      · exact hinv.jobsOk j (Or.inr (Or.inr (Or.inr (Or.inl hj))))
      · exact hinv.jobsOk j (Or.inr (Or.inr (Or.inr (Or.inr hj))))
    · rintro r (hr | ⟨rr, hr⟩ | hr)
      · exact hinv.resOk r (Or.inl hr)
      · simp at hr
      · exact hinv.resOk r (Or.inr (Or.inr hr))
  | prodFinish h1 =>
    refine ⟨hinv.workersCard, by simp, hLe, hEq, hinv.rclosedW,
      fun _ _ => rfl, hinv.wdoneBuf, ?_, ?_, hinv.dequeuedIn⟩
    · rintro j (hj | hj | ⟨r, hr⟩ | hj | hj)
      · exact hinv.jobsOk j (Or.inl hj)
      · exact hinv.jobsOk j (Or.inr (Or.inl hj))
      · simp at hr
      · exact hinv.jobsOk j (Or.inr (Or.inr (Or.inr (Or.inl hj))))
      · exact hinv.jobsOk j (Or.inr (Or.inr (Or.inr (Or.inr hj))))
    · rintro r (hr | ⟨rr, hr⟩ | hr)
      · exact hinv.resOk r (Or.inl hr)
      · simp at hr
      · exact hinv.resOk r (Or.inr (Or.inr hr))
  | prodEmit res rest h1 =>
    have hjc := jc_false hinv h1 (by simp)
    refine ⟨hinv.workersCard, by simp [hjc], hLe, hEq, hinv.rclosedW,
      hinv.wdoneJc, hinv.wdoneBuf, ?_, ?_, hinv.dequeuedIn⟩
    · rintro j (hj | hj | ⟨r, hr⟩ | hj | hj)
      · exact hinv.jobsOk j (Or.inl hj)
      · exact hinv.jobsOk j (Or.inr (Or.inl hj))
      · simp at hr
      · exact hinv.jobsOk j (Or.inr (Or.inr (Or.inr (Or.inl hj))))
      · exact hinv.jobsOk j (Or.inr (Or.inr (Or.inr (Or.inr hj))))
    · rintro r (hr | ⟨rr, hr⟩ | hr)
      · rcases List.mem_append.mp hr with hr | hr
        · exact hinv.resOk r (Or.inl hr)
        · rw [List.mem_singleton.mp hr]
          exact hinv.resOk res (Or.inr (Or.inl ⟨rest, h1⟩))
      · simp at hr
      · exact hinv.resOk r (Or.inr (Or.inr hr))
  | prodEmitCancel res rest h1 h2 =>
    refine ⟨hinv.workersCard, by simp, hLe, hEq, hinv.rclosedW,
      fun _ _ => rfl, ?_, ?_, ?_, hinv.dequeuedIn⟩
    · intro hc _ _; simp [h2] at hc
    · rintro j (hj | hj | ⟨r, hr⟩ | hj | hj)
      · exact hinv.jobsOk j (Or.inl hj)
      · exact hinv.jobsOk j (Or.inr (Or.inl hj))
      · simp at hr
      · exact hinv.jobsOk j (Or.inr (Or.inr (Or.inr (Or.inl hj))))
      · exact hinv.jobsOk j (Or.inr (Or.inr (Or.inr (Or.inr hj))))
    · rintro r (hr | ⟨rr, hr⟩ | hr)
      · exact hinv.resOk r (Or.inl hr)
      · simp at hr
      · exact hinv.resOk r (Or.inr (Or.inr hr))
  | prodSend j rest h1 =>
    have hjc := jc_false hinv h1 (by simp)
    refine ⟨hinv.workersCard, by simp [hjc], hLe, hEq, hinv.rclosedW,
      hinv.wdoneJc, ?_, ?_, ?_, hinv.dequeuedIn⟩
    · intro hc hall hne
      obtain ⟨w, hwm⟩ := Multiset.exists_mem_of_ne_zero hne
      have hwd : WCtl.wdone ∈ s.workers := (hall w hwm) ▸ hwm
      have hp := hinv.jcIff.mp (hinv.wdoneJc hc hwd)
      rw [h1] at hp
      cases hp
    · rintro j' (hj | hj | ⟨r, hr⟩ | hj | hj)
      · rcases List.mem_append.mp hj with hj | hj
        · exact hinv.jobsOk j' (Or.inl hj)
        · rw [List.mem_singleton.mp hj]
          exact hinv.jobsOk j (Or.inr (Or.inr (Or.inl ⟨rest, h1⟩)))
      · exact hinv.jobsOk j' (Or.inr (Or.inl hj))
      · simp at hr
      · exact hinv.jobsOk j' (Or.inr (Or.inr (Or.inr (Or.inl hj))))
      · exact hinv.jobsOk j' (Or.inr (Or.inr (Or.inr (Or.inr hj))))
    · rintro r (hr | ⟨rr, hr⟩ | hr)
      · exact hinv.resOk r (Or.inl hr)
      · simp at hr
      · exact hinv.resOk r (Or.inr (Or.inr hr))
  | prodSendCancel j rest h1 h2 =>
    refine ⟨hinv.workersCard, by simp, hLe, hEq, hinv.rclosedW,
      fun _ _ => rfl, ?_, ?_, ?_, hinv.dequeuedIn⟩
    · intro hc _ _; simp [h2] at hc
    · rintro j' (hj | hj | ⟨r, hr⟩ | hj | hj)
      · exact hinv.jobsOk j' (Or.inl hj)
      · exact hinv.jobsOk j' (Or.inr (Or.inl hj))
      · simp at hr
      · exact hinv.jobsOk j' (Or.inr (Or.inr (Or.inr (Or.inl hj))))
      · exact hinv.jobsOk j' (Or.inr (Or.inr (Or.inr (Or.inr hj))))
    · rintro r (hr | ⟨rr, hr⟩ | hr)
      · exact hinv.resOk r (Or.inl hr)
      · simp at hr
      · exact hinv.resOk r (Or.inr (Or.inr hr))
  | wDequeue j buf h1 h2 =>
    refine ⟨card_replace _ h1 ▸ hinv.workersCard, hinv.jcIff, hLe, hEq, ?_, ?_, ?_, ?_, ?_, ?_⟩
    · intro hr
      exact absurd (hinv.rclosedW hr WCtl.idle h1) (by simp)
    · intro hc hw
      rcases mem_replace hw with h' | h'
      · cases h'
      · exact hinv.wdoneJc hc h'
    · intro _ hall _
      exact absurd (hall (WCtl.busy j) (Multiset.mem_cons_self _ _)) (by simp)
    · rintro j' (hj | hj | ⟨r, hr⟩ | hj | hj)
      · exact hinv.jobsOk j' (Or.inl (h2 ▸ List.mem_cons_of_mem j hj))
      · rcases mem_replace hj with h' | h'
        · rw [WCtl.busy.injEq] at h'
          subst h'
          exact hinv.jobsOk j' (Or.inl (by rw [h2]; exact List.mem_cons_self _ _))
        · exact hinv.jobsOk j' (Or.inr (Or.inl h'))
      · exact hinv.jobsOk j' (Or.inr (Or.inr (Or.inl ⟨r, hr⟩)))
      · exact hinv.jobsOk j' (Or.inr (Or.inr (Or.inr (Or.inl hj))))
      · rcases List.mem_append.mp hj with hj | hj
        · exact hinv.jobsOk j' (Or.inr (Or.inr (Or.inr (Or.inr hj))))
        · rw [List.mem_singleton.mp hj]
          exact hinv.jobsOk j (Or.inl (by rw [h2]; exact List.mem_cons_self _ _))
    · rintro r (hr | ⟨rr, hr⟩ | hr)
      · exact hinv.resOk r (Or.inl hr)
      · exact hinv.resOk r (Or.inr (Or.inl ⟨rr, hr⟩))
      · rcases mem_replace hr with h' | h'
        · cases h'
        · exact hinv.resOk r (Or.inr (Or.inr h'))
    · intro j' hj
      rcases List.mem_append.mp hj with hj | hj
      · exact hinv.dequeuedIn j' hj
      · rw [List.mem_singleton.mp hj]
        have hjb : j.filePath ∈ (↑(s.jobsBuf.map Job.filePath) : Multiset String) := by
          rw [h2]; simp
        have hof := Multiset.mem_of_le (le_trans (owns_buf_le s) hinv.ownsLe) hjb
        simpa using hof
  | wExit h1 h2 h3 =>
    refine ⟨card_replace _ h1 ▸ hinv.workersCard, hinv.jcIff, hLe, hEq, ?_, ?_,
      fun _ _ _ => h3, ?_, ?_, hinv.dequeuedIn⟩
    · intro hr
      exact absurd (hinv.rclosedW hr WCtl.idle h1) (by simp)
    · intro hc hw
      rcases mem_replace hw with h' | h'
      · exact h2
      · exact hinv.wdoneJc hc h'
    · rintro j' (hj | hj | ⟨r, hr⟩ | hj | hj)
      · exact hinv.jobsOk j' (Or.inl hj)
      · rcases mem_replace hj with h' | h'
        · cases h'
        · exact hinv.jobsOk j' (Or.inr (Or.inl h'))
      · exact hinv.jobsOk j' (Or.inr (Or.inr (Or.inl ⟨r, hr⟩)))
      · exact hinv.jobsOk j' (Or.inr (Or.inr (Or.inr (Or.inl hj))))
      · exact hinv.jobsOk j' (Or.inr (Or.inr (Or.inr (Or.inr hj))))
    · rintro r (hr | ⟨rr, hr⟩ | hr)
      · exact hinv.resOk r (Or.inl hr)
      · exact hinv.resOk r (Or.inr (Or.inl ⟨rr, hr⟩))
      · rcases mem_replace hr with h' | h'
        · cases h'
        · exact hinv.resOk r (Or.inr (Or.inr h'))
  | wCancelAfterDequeue j h1 h2 =>
    refine ⟨card_replace _ h1 ▸ hinv.workersCard, hinv.jcIff, hLe, hEq, ?_, ?_, ?_, ?_, ?_,
      hinv.dequeuedIn⟩
    · intro hr
      exact absurd (hinv.rclosedW hr _ h1) (by simp)
    · intro hc; simp [h2] at hc
    · intro hc; simp [h2] at hc
    · rintro j' (hj | hj | ⟨r, hr⟩ | hj | hj)
      · exact hinv.jobsOk j' (Or.inl hj)
      · rcases mem_replace hj with h' | h'
        · cases h'
        · exact hinv.jobsOk j' (Or.inr (Or.inl h'))
      · exact hinv.jobsOk j' (Or.inr (Or.inr (Or.inl ⟨r, hr⟩)))
      · exact hinv.jobsOk j' (Or.inr (Or.inr (Or.inr (Or.inl hj))))
      · exact hinv.jobsOk j' (Or.inr (Or.inr (Or.inr (Or.inr hj))))
    · rintro r (hr | ⟨rr, hr⟩ | hr)
      · exact hinv.resOk r (Or.inl hr)
      · exact hinv.resOk r (Or.inr (Or.inl ⟨rr, hr⟩))
      · rcases mem_replace hr with h' | h'
        · cases h'
        · exact hinv.resOk r (Or.inr (Or.inr h'))
  | wCall j h1 h2 =>
    refine ⟨card_replace _ h1 ▸ hinv.workersCard, hinv.jcIff, hLe, hEq, ?_, ?_, ?_, ?_, ?_,
      hinv.dequeuedIn⟩
    · intro hr
      exact absurd (hinv.rclosedW hr _ h1) (by simp)
    · intro hc hw
      rcases mem_replace hw with h' | h'
      · cases h'
      · exact hinv.wdoneJc hc h'
    · intro _ hall _
      exact absurd (hall _ (Multiset.mem_cons_self _ _)) (by simp)
    · rintro j' (hj | hj | ⟨r, hr⟩ | hj | hj)
      · exact hinv.jobsOk j' (Or.inl hj)
      · rcases mem_replace hj with h' | h'
        · cases h'
        · exact hinv.jobsOk j' (Or.inr (Or.inl h'))
      · exact hinv.jobsOk j' (Or.inr (Or.inr (Or.inl ⟨r, hr⟩)))
      · rcases List.mem_append.mp hj with hj | hj
        · exact hinv.jobsOk j' (Or.inr (Or.inr (Or.inr (Or.inl hj))))
        · rw [List.mem_singleton.mp hj]
          exact hinv.jobsOk j (Or.inr (Or.inl h1))
      · exact hinv.jobsOk j' (Or.inr (Or.inr (Or.inr (Or.inr hj))))
    · rintro r (hr | ⟨rr, hr⟩ | hr)
      · exact hinv.resOk r (Or.inl hr)
      · exact hinv.resOk r (Or.inr (Or.inl ⟨rr, hr⟩))
      · rcases mem_replace hr with h' | h'
        · rw [WCtl.deliver.injEq] at h'
          subst h'
          exact Or.inr ⟨j, hinv.jobsOk j (Or.inr (Or.inl h1)), rfl⟩
        · exact hinv.resOk r (Or.inr (Or.inr h'))
  | wDeliver res h1 =>
    refine ⟨card_replace _ h1 ▸ hinv.workersCard, hinv.jcIff, hLe, hEq, ?_, ?_, ?_, ?_, ?_,
      hinv.dequeuedIn⟩
    · intro hr
      exact absurd (hinv.rclosedW hr _ h1) (by simp)
    · intro hc hw
      rcases mem_replace hw with h' | h'
      · cases h'
      · exact hinv.wdoneJc hc h'
    · intro _ hall _
      exact absurd (hall _ (Multiset.mem_cons_self _ _)) (by simp)
    · rintro j' (hj | hj | ⟨r, hr⟩ | hj | hj)
      · exact hinv.jobsOk j' (Or.inl hj)
      · rcases mem_replace hj with h' | h'
        · cases h'
        · exact hinv.jobsOk j' (Or.inr (Or.inl h'))
      · exact hinv.jobsOk j' (Or.inr (Or.inr (Or.inl ⟨r, hr⟩)))
      · exact hinv.jobsOk j' (Or.inr (Or.inr (Or.inr (Or.inl hj))))
      · exact hinv.jobsOk j' (Or.inr (Or.inr (Or.inr (Or.inr hj))))
    · rintro r (hr | ⟨rr, hr⟩ | hr)
      · rcases List.mem_append.mp hr with hr | hr
        · exact hinv.resOk r (Or.inl hr)
        · rw [List.mem_singleton.mp hr]
          exact hinv.resOk res (Or.inr (Or.inr h1))
      · exact hinv.resOk r (Or.inr (Or.inl ⟨rr, hr⟩))
      · rcases mem_replace hr with h' | h'
        · cases h'
        · exact hinv.resOk r (Or.inr (Or.inr h'))
  | wDeliverCancel res h1 h2 =>
    refine ⟨card_replace _ h1 ▸ hinv.workersCard, hinv.jcIff, hLe, hEq, ?_, ?_, ?_, ?_, ?_,
      hinv.dequeuedIn⟩
    · intro hr
      exact absurd (hinv.rclosedW hr _ h1) (by simp)
    · intro hc; simp [h2] at hc
    · intro hc; simp [h2] at hc
    · rintro j' (hj | hj | ⟨r, hr⟩ | hj | hj)
      · exact hinv.jobsOk j' (Or.inl hj)
      · rcases mem_replace hj with h' | h'
        · cases h'
        · exact hinv.jobsOk j' (Or.inr (Or.inl h'))
      · exact hinv.jobsOk j' (Or.inr (Or.inr (Or.inl ⟨r, hr⟩)))
      · exact hinv.jobsOk j' (Or.inr (Or.inr (Or.inr (Or.inl hj))))
      · exact hinv.jobsOk j' (Or.inr (Or.inr (Or.inr (Or.inr hj))))
    · rintro r (hr | ⟨rr, hr⟩ | hr)
      · exact hinv.resOk r (Or.inl hr)
      · exact hinv.resOk r (Or.inr (Or.inl ⟨rr, hr⟩))
      · rcases mem_replace hr with h' | h'
        · cases h'
        · exact hinv.resOk r (Or.inr (Or.inr h'))
  | closeResults h1 h2 =>
    exact ⟨hinv.workersCard, hinv.jcIff, hLe, hEq, fun _ => h1,
      hinv.wdoneJc, hinv.wdoneBuf, hinv.jobsOk, hinv.resOk, hinv.dequeuedIn⟩

/-- The invariant holds in every reachable state. -/
theorem reachable_inv {e : Engine} {env : Env} {files : List String} {s : PState}
    (h : Reachable e env files s) : Inv e env files s := by
  induction h with
  | refl => exact inv_init e env files
  | tail hab hbc ih => exact inv_step ih hbc

/-- In an uncancelled state whose results channel is closed (and with at
least one worker), the emitted paths are exactly the input file multiset,
the producer has returned and the job buffer is drained. -/
theorem final_state_facts {e : Engine} {env : Env} {files : List String} {s : PState}
    (hinv : Inv e env files s) (he : 0 < e.concurrency)
    (hc : s.cancelled = false) (hr : s.rclosed = true) :
    (↑(s.emitted.map Result.filePath) : Multiset String) = ↑files ∧
    s.pctl = PCtl.pdone ∧ s.jobsBuf = [] := by
  have hall := hinv.rclosedW hr
  have hne : s.workers ≠ 0 := by
    intro h0
    have hcard := hinv.workersCard
    rw [h0] at hcard
    simp at hcard
    omega
  obtain ⟨w, hw⟩ := Multiset.exists_mem_of_ne_zero hne
  have hwd : WCtl.wdone ∈ s.workers := (hall w hw) ▸ hw
  have hpd := hinv.jcIff.mp (hinv.wdoneJc hc hwd)
  have hbuf := hinv.wdoneBuf hc hall hne
  have hbind : s.workers.bind wPaths = 0 :=
    bind_eq_zero _ _ fun a ha => by rw [hall a ha]; rfl
  have howns := hinv.ownsEq hc
  simp only [ownedPaths, hbuf, hpd, hbind, pcPaths, List.map_nil, Multiset.coe_nil,
    add_zero] at howns
  exact ⟨howns, hpd, hbuf⟩

/-- When `readFile` succeeds, the returned content is within the cap and the
reported size is its length. -/
theorem readFile_ok_bound (fs : FileState) (h : (readFile fs).err = Option.none) :
    ((readFile fs).content.length : Int) ≤ (MaxFileSize : Int) ∧
    (readFile fs).size = ((readFile fs).content.length : Int) ∧
    (readFile fs).skip = SkipReason.none := by
  simp only [readFile] at h ⊢
  split_ifs at h ⊢ with h1 h2 h3 h4 h5
  exact ⟨not_lt.mp h5, rfl, rfl⟩

/-- A complete uncancelled run over `["a"]`: read, enqueue, producer done,
dequeue, analysis call (failing), deliver, worker exit, close. -/
theorem reachDoneA : Reachable engOne envHello ["a"] sDoneA := by
  refine Relation.ReflTransGen.head (Step.prodReadOk _ "a" [] rfl rfl rfl) ?_
  refine Relation.ReflTransGen.head (Step.prodSend _ jobA [] rfl) ?_
  refine Relation.ReflTransGen.head (Step.prodFinish _ rfl) ?_
  refine Relation.ReflTransGen.head (Step.wDequeue _ jobA [] (by decide) rfl) ?_
  refine Relation.ReflTransGen.head (Step.wCall _ jobA (by decide) rfl) ?_
  refine Relation.ReflTransGen.head (Step.wDeliver _ resFail (by decide)) ?_
  refine Relation.ReflTransGen.head (Step.wExit _ (by decide) rfl rfl) ?_
  refine Relation.ReflTransGen.head (Step.closeResults _ (by decide) rfl) ?_
  exact Relation.ReflTransGen.refl

/-- A cancelled run over `["a", "b"]` in which the results channel is
closed while the producer still has "b" pending. -/
theorem reachCancelB : Reachable engOne envHello ["a", "b"] sCancelB := by
  refine Relation.ReflTransGen.head (Step.prodReadOk _ "a" ["b"] rfl rfl rfl) ?_
  refine Relation.ReflTransGen.head (Step.prodSend _ jobA ["b"] rfl) ?_
  refine Relation.ReflTransGen.head (Step.wDequeue _ jobA [] (by decide) rfl) ?_
  refine Relation.ReflTransGen.head (Step.cancel _ rfl) ?_
  refine Relation.ReflTransGen.head (Step.wCancelAfterDequeue _ jobA (by decide) rfl) ?_
  refine Relation.ReflTransGen.head (Step.closeResults _ (by decide) rfl) ?_
  exact Relation.ReflTransGen.refl

/-- A cancelled run over `["a"]` in which the worker dequeues `jobA`,
observes cancellation, and exits without delivering any outcome. -/
theorem reachDropC : Reachable engOne envHello ["a"] sDropC := by
  refine Relation.ReflTransGen.head (Step.prodReadOk _ "a" [] rfl rfl rfl) ?_
  refine Relation.ReflTransGen.head (Step.prodSend _ jobA [] rfl) ?_
  refine Relation.ReflTransGen.head (Step.prodFinish _ rfl) ?_
  refine Relation.ReflTransGen.head (Step.wDequeue _ jobA [] (by decide) rfl) ?_
  refine Relation.ReflTransGen.head (Step.cancel _ rfl) ?_
  refine Relation.ReflTransGen.head (Step.wCancelAfterDequeue _ jobA (by decide) rfl) ?_
  refine Relation.ReflTransGen.head (Step.closeResults _ (by decide) rfl) ?_
  exact Relation.ReflTransGen.refl

/-- `sDropC` is terminal: no step applies, so the dropped job's outcome can
never be delivered. -/
theorem sDropC_stuck : ∀ s', ¬ Step engOne envHello sDropC s' := by
  intro s' h
  cases h <;> simp_all [sDropC]

/-- A complete uncancelled run over the oversized file `["big"]`: the
producer emits the skip result itself; the worker never gets a job. -/
theorem reachBigD : Reachable engOne envBig ["big"] sBigD := by
  refine Relation.ReflTransGen.head
    (Step.prodReadErr _ "big" [] "file too large, skipped" rfl rfl rfl) ?_
  refine Relation.ReflTransGen.head (Step.prodEmit _ resBig [] rfl) ?_
  refine Relation.ReflTransGen.head (Step.prodFinish _ rfl) ?_
  refine Relation.ReflTransGen.head (Step.wExit _ (by decide) rfl rfl) ?_
  refine Relation.ReflTransGen.head (Step.closeResults _ (by decide) rfl) ?_
  exact Relation.ReflTransGen.refl

/-- C1: over a post-filtering candidate file set, a run that is never
cancelled and has closed its results channel has emitted exactly `|F|`
outcomes — the emitted file paths are a permutation of the input paths, so
for a duplicate-free input set the outcome paths are distinct — and in every
reachable state (in particular under cancellation) the number of emitted
outcomes never exceeds `|F|`. -/
theorem pipeline_outcome_bijection (e : Engine) (env : Env) (files : List String)
    (s : PState) (he : 0 < e.concurrency) (hreach : Reachable e env files s) :
    s.emitted.length ≤ files.length ∧
    (s.cancelled = false → s.rclosed = true →
      (s.emitted.map Result.filePath).Perm files ∧
      (files.Nodup → (s.emitted.map Result.filePath).Nodup)) := by
  have hinv := reachable_inv hreach
  constructor
  · have h1 := Multiset.card_le_card (le_trans (owns_emitted_le s) hinv.ownsLe)
    simpa using h1
  · intro hc hr
    obtain ⟨hE, -, -⟩ := final_state_facts hinv he hc hr
    have hperm : (s.emitted.map Result.filePath).Perm files := Multiset.coe_eq_coe.mp hE
    exact ⟨hperm, fun hnd => hperm.nodup_iff.mpr hnd⟩

/-- C1 witness: the complete single-file run emits exactly one outcome whose
path is the input path. -/
theorem pipeline_outcome_bijection_witness :
    (0 : Int) < engOne.concurrency ∧ Reachable engOne envHello ["a"] sDoneA ∧
    sDoneA.emitted.length ≤ ["a"].length ∧
    (sDoneA.emitted.map Result.filePath).Perm ["a"] := by
  have h := pipeline_outcome_bijection engOne envHello ["a"] sDoneA (by decide) reachDoneA
  exact ⟨by decide, reachDoneA, h.1, (h.2 rfl rfl).1⟩

/-- C2 (amended): the job channel is closed exactly when the producer has
returned; the results channel is closed only when every worker has exited,
stays closed, and no worker revives after closure (hence no worker send can
follow closure).  The original claim's further assertion — that closure
happens only after the producer has finished — is refuted separately by the
cancelled run reaching `sCancelB`. -/
theorem results_close_protocol (e : Engine) (env : Env) (files : List String)
    (s : PState) (hreach : Reachable e env files s) :
    (s.jobsClosed = true ↔ s.pctl = PCtl.pdone) ∧
    (s.rclosed = true → (∀ w ∈ s.workers, w = WCtl.wdone) ∧
      ∀ s', Step e env s s' → s'.rclosed = true ∧ ∀ w ∈ s'.workers, w = WCtl.wdone) := by
  have hinv := reachable_inv hreach
  refine ⟨hinv.jcIff, fun hr => ⟨hinv.rclosedW hr, fun s' hs => ?_⟩⟩
  have hall := hinv.rclosedW hr
  cases hs with
  | cancel hc => exact ⟨hr, hall⟩
  | prodReadErr f rest m h1 h2 h3 => exact ⟨hr, hall⟩
  | prodReadOk f rest h1 h2 h3 => exact ⟨hr, hall⟩
  | prodCancelTop f rest h1 h2 => exact ⟨hr, hall⟩
  | prodFinish h1 => exact ⟨hr, hall⟩
  | prodEmit res rest h1 => exact ⟨hr, hall⟩
  | prodEmitCancel res rest h1 h2 => exact ⟨hr, hall⟩
  | prodSend j rest h1 => exact ⟨hr, hall⟩
  | prodSendCancel j rest h1 h2 => exact ⟨hr, hall⟩
  | wDequeue j buf h1 h2 => exact absurd (hall _ h1) (by simp)
  | wExit h1 h2 h3 => exact absurd (hall _ h1) (by simp)
  | wCancelAfterDequeue j h1 h2 => exact absurd (hall _ h1) (by simp)
  | wCall j h1 h2 => exact absurd (hall _ h1) (by simp)
  | wDeliver res h1 => exact absurd (hall _ h1) (by simp)
  | wDeliverCancel res h1 h2 => exact absurd (hall _ h1) (by simp)
  | closeResults h1 h2 => rw [hr] at h2; cases h2

/-- C2 witness: the close protocol facts evaluated on the completed
single-file run. -/
theorem results_close_protocol_witness :
    Reachable engOne envHello ["a"] sDoneA ∧
    ((sDoneA.jobsClosed = true ↔ sDoneA.pctl = PCtl.pdone) ∧
      (sDoneA.rclosed = true → (∀ w ∈ sDoneA.workers, w = WCtl.wdone) ∧
        ∀ s', Step engOne envHello sDoneA s' →
          s'.rclosed = true ∧ ∀ w ∈ s'.workers, w = WCtl.wdone)) :=
  ⟨reachDoneA, results_close_protocol engOne envHello ["a"] sDoneA reachDoneA⟩

/-- C2 counterexample: under cancellation the results channel can be closed
while the producer is still running — a reachable state has `rclosed` and a
producer still at the top of its loop with a file pending. -/
theorem results_closed_before_producer_finished :
    Reachable engOne envHello ["a", "b"] sCancelB ∧
    sCancelB.rclosed = true ∧ sCancelB.pctl = PCtl.loop ["b"] ∧
    sCancelB.pctl ≠ PCtl.pdone ∧ sCancelB.jobsClosed = false :=
  ⟨reachCancelB, rfl, rfl, by decide, rfl⟩

/-- C3 (amended): in an uncancelled completed run every dequeued job's path
appears among the emitted outcomes; under cancellation this fails (the
cancelled run reaching `sDropC` drops a dequeued job): a worker that
observes cancellation after dequeuing exits without delivering an outcome
for the dequeued job. -/
theorem dequeued_jobs_delivered_when_uncancelled (e : Engine) (env : Env)
    (files : List String) (s : PState) (he : 0 < e.concurrency)
    (hreach : Reachable e env files s)
    (hc : s.cancelled = false) (hr : s.rclosed = true) :
    ∀ j ∈ s.dequeued, j.filePath ∈ s.emitted.map Result.filePath := by
  have hinv := reachable_inv hreach
  obtain ⟨hE, -, -⟩ := final_state_facts hinv he hc hr
  intro j hj
  have hf : j.filePath ∈ (↑files : Multiset String) :=
    Multiset.mem_coe.mpr (hinv.dequeuedIn j hj)
  rw [← hE] at hf
  exact Multiset.mem_coe.mp hf

/-- C3 witness: in the completed uncancelled run the dequeued job's path is
among the emitted paths. -/
theorem dequeued_jobs_delivered_when_uncancelled_witness :
    (0 : Int) < engOne.concurrency ∧ Reachable engOne envHello ["a"] sDoneA ∧
    sDoneA.cancelled = false ∧ sDoneA.rclosed = true ∧
    ∀ j ∈ sDoneA.dequeued, j.filePath ∈ sDoneA.emitted.map Result.filePath :=
  ⟨by decide, reachDoneA, rfl, rfl,
    dequeued_jobs_delivered_when_uncancelled engOne envHello ["a"] sDoneA
      (by decide) reachDoneA rfl rfl⟩

/-- C3 counterexample: a reachable, terminal (no step applies) state of a
cancelled run in which the worker dequeued `jobA` but nothing was ever
emitted — the dequeued job yields no delivered outcome. -/
theorem dequeued_job_dropped_on_cancellation :
    Reachable engOne envHello ["a"] sDropC ∧ sDropC.dequeued = [jobA] ∧
    sDropC.emitted = [] ∧ sDropC.rclosed = true ∧ sDropC.cancelled = true ∧
    ∀ s', ¬ Step engOne envHello sDropC s' :=
  ⟨reachDropC, rfl, rfl, rfl, rfl, sDropC_stuck⟩

/-- C4: a candidate whose stat-reported size exceeds the 32 KiB cap is
turned into a `Skipped(TooLarge)` result carrying the stat size; the outcome
of `readFile` is independent of the file's data and read behaviour (the
content is never read); no analysis call is ever made for that path; and in
an uncancelled completed run the emitted outcome for that path is the
`Skipped(TooLarge)` one. -/
theorem oversized_file_skipped_without_read_or_call (e : Engine) (env : Env)
    (files : List String) (s : PState) (p : String)
    (hreach : Reachable e env files s)
    (hopen : (env.fsys p).openErr = false) (hstat : (env.fsys p).statErr = false)
    (hbig : (MaxFileSize : Int) < (env.fsys p).statSize) :
    (readFile (env.fsys p)).skip = SkipReason.tooLarge ∧
    (readFile (env.fsys p)).size = (env.fsys p).statSize ∧
    (∀ d b, readFile { env.fsys p with data := d, readErr := b } = readFile (env.fsys p)) ∧
    (∀ j ∈ s.calls, j.filePath ≠ p) ∧
    (0 < e.concurrency → s.cancelled = false → s.rclosed = true → p ∈ files →
      ∃ res ∈ s.emitted, res.filePath = p ∧ res.skipReason = SkipReason.tooLarge ∧
        res.fileSize = (env.fsys p).statSize ∧ res.review = Option.none) := by
  have hinv := reachable_inv hreach
  have hrf : readFile (env.fsys p) =
      ⟨[], (env.fsys p).statSize, SkipReason.tooLarge, some "file too large, skipped"⟩ := by
    simp [readFile, hopen, hstat, hbig]
  refine ⟨by rw [hrf], by rw [hrf], ?_, ?_, ?_⟩
  · intro d b
    rw [hrf]
    simp [readFile, hopen, hstat, hbig]
  · intro j hj heq
    have hok := (hinv.jobsOk j (Or.inr (Or.inr (Or.inr (Or.inl hj))))).1
    rw [heq, hrf] at hok
    exact absurd hok (by simp)
  · intro hconc hc hr hp
    obtain ⟨hE, -, -⟩ := final_state_facts hinv hconc hc hr
    have hmem : p ∈ s.emitted.map Result.filePath := by
      have : p ∈ (↑files : Multiset String) := Multiset.mem_coe.mpr hp
      rw [← hE] at this
      exact Multiset.mem_coe.mp this
    obtain ⟨res, hres, hfp⟩ := List.mem_map.mp hmem
    refine ⟨res, hres, hfp, ?_⟩
    rcases hinv.resOk res (Or.inl hres) with ⟨heq, -⟩ | ⟨j, hjok, heq⟩
    · rw [hfp] at heq
      rw [heq, hrf]
      exact ⟨rfl, rfl, rfl⟩
    · have hjp : j.filePath = p := by rw [heq] at hfp; exact hfp
      have hj1 := hjok.1
      rw [hjp, hrf] at hj1
      exact absurd hj1 (by simp)

/-- C4 witness: the complete run over the file of exactly cap + 1 bytes
(stat size 32769) yields the skip outcome with that size and no calls. -/
theorem oversized_file_skipped_witness :
    (MaxFileSize : Int) < (envBig.fsys "big").statSize ∧
    Reachable engOne envBig ["big"] sBigD ∧
    (readFile (envBig.fsys "big")).skip = SkipReason.tooLarge ∧
    (readFile (envBig.fsys "big")).size = 32769 ∧
    (∀ j ∈ sBigD.calls, j.filePath ≠ "big") ∧
    (∃ res ∈ sBigD.emitted, res.filePath = "big" ∧
      res.skipReason = SkipReason.tooLarge ∧ res.fileSize = (envBig.fsys "big").statSize ∧
      res.review = Option.none) := by
  have h := oversized_file_skipped_without_read_or_call engOne envBig ["big"] sBigD "big"
    reachBigD rfl rfl (by decide)
  exact ⟨by decide, reachBigD, h.1, h.2.1, h.2.2.2.1,
    h.2.2.2.2 (by decide) rfl rfl (by decide)⟩

/-- C5: every job anywhere in the pipeline (buffered, held by a worker,
dequeued or passed to an analysis call) was read without error and its
content length is at most the 32 KiB cap; and a file that passes the stat
check but whose data has grown beyond the cap is rejected by the read-time
double check as `Skipped(TooLarge)` with the observed size (cap + 1, the
bytes actually read through the limited reader) instead of being enqueued. -/
theorem job_size_cap (e : Engine) (env : Env) (files : List String) (s : PState)
    (hreach : Reachable e env files s) :
    (∀ j, JobInState s j → (readFile (env.fsys j.filePath)).err = Option.none ∧
      (j.content.length : Int) ≤ (MaxFileSize : Int)) ∧
    (∀ fs : FileState, fs.openErr = false → fs.statErr = false →
      fs.statSize ≤ (MaxFileSize : Int) → fs.readErr = false →
      (MaxFileSize : Int) < (fs.data.length : Int) →
      readFile fs = ⟨[], (MaxFileSize : Int) + 1, SkipReason.tooLarge,
        some "file too large, skipped"⟩) := by
  have hinv := reachable_inv hreach
  constructor
  · intro j hj
    have hok := hinv.jobsOk j hj
    refine ⟨hok.1, ?_⟩
    rw [hok.2]
    exact (readFile_ok_bound _ hok.1).1
  · intro fs hopen hstat hsize hread hgrow
    have hlen : (fs.data.take (MaxFileSize + 1)).length = MaxFileSize + 1 := by
      rw [List.length_take]
      have : MaxFileSize < fs.data.length := by exact_mod_cast hgrow
      omega
    have hover : (MaxFileSize : Int) < ((fs.data.take (MaxFileSize + 1)).length : Int) := by
      rw [hlen]
      push_cast
      omega
    simp [readFile, hopen, hstat, hread, not_lt.mpr hsize, hover, hlen]

/-- C5 witness: the cap facts applied to a concrete state, and the TOCTOU
double check on a file whose stat size is small but whose data has 32769
bytes: the read is rejected with observed size 32769. -/
theorem job_size_cap_witness :
    ((MaxFileSize : Int) < ((List.replicate 32769 'a').length : Int)) ∧
    readFile ⟨false, false, 10, false, List.replicate 32769 'a'⟩ =
      ⟨[], (MaxFileSize : Int) + 1, SkipReason.tooLarge, some "file too large, skipped"⟩ ∧
    (∀ j, JobInState sDoneA j → (readFile (envHello.fsys j.filePath)).err = Option.none ∧
      (j.content.length : Int) ≤ (MaxFileSize : Int)) := by
  have h := job_size_cap engOne envHello ["a"] sDoneA reachDoneA
  have hgrow : (MaxFileSize : Int) < ((List.replicate 32769 'a').length : Int) := by
    rw [List.length_replicate]
    decide
  exact ⟨hgrow, h.2 _ rfl rfl (by decide) rfl hgrow, h.1⟩

/-- C8: an engine constructed with a non-positive concurrency gets the
default of 5, a positive concurrency `k` is kept, and `Start` launches
exactly `concurrency` workers. -/
theorem engine_worker_count (c : Client) (k lvl : Int) (eng : Engine)
    (h : NewEngine (some c) k lvl = Except.ok eng) :
    (k ≤ 0 → eng.concurrency = DefaultConcurrency) ∧
    (0 < k → eng.concurrency = k) ∧
    ∀ files, Multiset.card (initState eng files).workers = eng.concurrency.toNat := by
  simp only [NewEngine] at h
  injection h with h
  subst h
  refine ⟨fun hk => ?_, fun hk => ?_, fun files => ?_⟩
  · show (if k ≤ 0 then DefaultConcurrency else k) = DefaultConcurrency
    rw [if_pos hk]
  · show (if k ≤ 0 then DefaultConcurrency else k) = k
    rw [if_neg (by omega)]
  · simp [initState]

/-- C8 witness: `NewEngine` with concurrency 0 produces a pool of exactly 5
workers. -/
theorem engine_worker_count_witness :
    NewEngine (some clientFail) 0 3 = Except.ok (Engine.mk clientFail 5 3) ∧
    (Engine.mk clientFail 5 3).concurrency = DefaultConcurrency ∧
    Multiset.card (initState (Engine.mk clientFail 5 3) ["a"]).workers = 5 := by
  have h0 : NewEngine (some clientFail) 0 3 = Except.ok (Engine.mk clientFail 5 3) := rfl
  obtain ⟨h1, -, h3⟩ := engine_worker_count clientFail 0 3 _ h0
  exact ⟨h0, h1 (by decide), by rw [h3 ["a"]]; rfl⟩

/-- C9 (amended): every emitted outcome's path is one of the input paths
(hence non-empty whenever the inputs are), and every emitted outcome is
either the producer's skip/read-error result — which carries the size
`readFile` determined — or a worker result, whose `fileSize` is always the
zero value even when the size was determinable.  The original claim that a
`Failed` outcome for a read job carries the file's size is refuted
separately on the run reaching `sDoneA`. -/
theorem outcome_fields (e : Engine) (env : Env) (files : List String) (s : PState)
    (hreach : Reachable e env files s) :
    (∀ r ∈ s.emitted, r.filePath ∈ files ∧
      (r = mkProdResult r.filePath (readFile (env.fsys r.filePath)) ∨ r.fileSize = 0)) ∧
    ((∀ p ∈ files, p ≠ "") → ∀ r ∈ s.emitted, r.filePath ≠ "") := by
  have hinv := reachable_inv hreach
  have hmem : ∀ r ∈ s.emitted, r.filePath ∈ files := by
    intro r hr
    have h1 : r.filePath ∈ (↑(s.emitted.map Result.filePath) : Multiset String) := by
      simp only [Multiset.mem_coe, List.mem_map]
      exact ⟨r, hr, rfl⟩
    have h2 := Multiset.mem_of_le (le_trans (owns_emitted_le s) hinv.ownsLe) h1
    exact Multiset.mem_coe.mp h2
  refine ⟨fun r hr => ⟨hmem r hr, ?_⟩, fun hne r hr => hne _ (hmem r hr)⟩
  rcases hinv.resOk r (Or.inl hr) with ⟨heq, -⟩ | ⟨j, -, heq⟩
  · exact Or.inl heq
  · right
    rw [heq]
    rfl

/-- C9 witness: the amended outcome-field facts on the completed run. -/
theorem outcome_fields_witness :
    Reachable engOne envHello ["a"] sDoneA ∧
    (∀ r ∈ sDoneA.emitted, r.filePath ∈ ["a"] ∧
      (r = mkProdResult r.filePath (readFile (envHello.fsys r.filePath)) ∨ r.fileSize = 0)) ∧
    (∀ r ∈ sDoneA.emitted, r.filePath ≠ "") := by
  have h := outcome_fields engOne envHello ["a"] sDoneA reachDoneA
  exact ⟨reachDoneA, h.1, h.2 (by decide)⟩

/-- C9 counterexample: a completed run whose only outcome is a
`Failed(AnalysisError)` result for a job whose content was read (readFile
succeeded with size 5), yet the outcome's `fileSize` is 0, not 5 — worker
results never populate `fileSize`. -/
theorem failed_outcome_missing_size :
    Reachable engOne envHello ["a"] sDoneA ∧
    sDoneA.emitted = [resFail] ∧ resFail.error = some "analysis failed" ∧
    resFail.review = Option.none ∧ resFail.skipReason = SkipReason.none ∧
    (readFile (envHello.fsys "a")).err = Option.none ∧
    (readFile (envHello.fsys "a")).size = 5 ∧
    resFail.fileSize = 0 ∧ resFail.fileSize ≠ (readFile (envHello.fsys "a")).size :=
  ⟨reachDoneA, rfl, rfl, rfl, rfl, rfl, rfl, rfl, by decide⟩

end reviewer

namespace scanner

/-- The scan callback never returns an error: every branch of its source
returns `nil` or `filepath.SkipDir`. -/
theorem scanCallback_ne_fail (s : Scanner) (e : EntryInfo) (m : String) :
    scanCallback s e ≠ WalkAction.fail m := by
  intro h
  simp only [scanCallback] at h
  split_ifs at h

mutual
/-- Walking a single entry always succeeds (per-entry errors are swallowed
by the callback, never propagated). -/
theorem walkNode_ok (s : Scanner) (rel : String) (n : FsNode) :
    ∃ l, walkNode s rel n = Except.ok l := by
  cases n with
  | file name data wErr oErr =>
    cases hcb : scanCallback s ⟨rel, name, false, false, wErr, data, oErr⟩ with
    | keep => exact ⟨[s.rootPath ++ "/" ++ rel], by simp [walkNode, hcb]⟩
    | skip => exact ⟨[], by simp [walkNode, hcb]⟩
    | skipDir => exact ⟨[], by simp [walkNode, hcb]⟩
    | fail m => exact absurd hcb (scanCallback_ne_fail s _ m)
  | symlink name =>
    cases hcb : scanCallback s ⟨rel, name, false, true, false, [], false⟩ with
    | keep => exact ⟨[s.rootPath ++ "/" ++ rel], by simp [walkNode, hcb]⟩
    | skip => exact ⟨[], by simp [walkNode, hcb]⟩
    | skipDir => exact ⟨[], by simp [walkNode, hcb]⟩
    | fail m => exact absurd hcb (scanCallback_ne_fail s _ m)
  | dir name wErr children =>
    cases hcb : scanCallback s ⟨rel, name, true, false, false, [], false⟩ with
    | fail m => exact absurd hcb (scanCallback_ne_fail s _ m)
    | skipDir => exact ⟨[], by simp [walkNode, hcb]⟩
    | keep =>
      cases hw : wErr with
      | true =>
        cases hcb2 : scanCallback s ⟨rel, name, true, false, true, [], false⟩ with
        | fail m => exact absurd hcb2 (scanCallback_ne_fail s _ m)
        | keep => exact ⟨[], by simp [walkNode, hcb, hcb2]⟩
        | skip => exact ⟨[], by simp [walkNode, hcb, hcb2]⟩
        | skipDir => exact ⟨[], by simp [walkNode, hcb, hcb2]⟩
      | false =>
        obtain ⟨l, hl⟩ := walkList_ok s rel children
        exact ⟨l, by simp [walkNode, hcb, hl]⟩
    | skip =>
      cases hw : wErr with
      | true =>
        cases hcb2 : scanCallback s ⟨rel, name, true, false, true, [], false⟩ with
        | fail m => exact absurd hcb2 (scanCallback_ne_fail s _ m)
        | keep => exact ⟨[], by simp [walkNode, hcb, hcb2]⟩
        | skip => exact ⟨[], by simp [walkNode, hcb, hcb2]⟩
        | skipDir => exact ⟨[], by simp [walkNode, hcb, hcb2]⟩
      | false =>
        obtain ⟨l, hl⟩ := walkList_ok s rel children
        exact ⟨l, by simp [walkNode, hcb, hl]⟩

/-- Walking a forest always succeeds. -/
theorem walkList_ok (s : Scanner) (rel : String) (f : FsForest) :
    ∃ l, walkList s rel f = Except.ok l := by
  cases f with
  | nil => exact ⟨[], rfl⟩
  | cons c cs =>
    obtain ⟨l1, h1⟩ := walkNode_ok s (relJoin rel (nodeName c)) c
    obtain ⟨l2, h2⟩ := walkList_ok s rel cs
    exact ⟨l1 ++ l2, by simp only [walkList, h1, h2]; rfl⟩
end

/-- C6: with no gitignore in play, a non-root directory entry is pruned
exactly when its base name is a member of the exclusion set — if it is, the
whole subtree yields nothing (a file inside it is never discovered); if it
is not (even when an excluded name occurs inside it as a substring), the
walk descends into its children unchanged.  A file entry whose base name is
in the exclusion set is likewise skipped. -/
theorem discoverer_exclusion_exact (s : Scanner) (rel name : String)
    (children : FsForest) (data : List Char) (oErr : Bool)
    (hgi : s.gitIgnore = none) (hrel : rel ≠ ".") :
    walkNode s rel (.dir name false children) =
      (if s.excludeDirs.contains name then Except.ok [] else walkList s rel children) ∧
    (s.excludeDirs.contains name = true →
      walkNode s rel (.file name data false oErr) = Except.ok []) := by
  have hbe : (rel == ".") = false := beq_eq_false_iff_ne.mpr hrel
  constructor
  · by_cases hx : name ∈ s.excludeDirs
    · simp [walkNode, scanCallback, hbe, hx]
    · simp [walkNode, scanCallback, hbe, hx, matchesIgnore, hgi]
  · intro hx
    have hx' : name ∈ s.excludeDirs := by simpa using hx
    simp [walkNode, scanCallback, hbe, hx']

/-- C6 witness: a directory named exactly "vendor" is pruned (its `.go`
child is not discovered), while a directory named "vendor_x" — which merely
contains the excluded name "vendor" as a substring — is descended into and
its `.go` child is discovered. -/
theorem discoverer_exclusion_exact_witness :
    sNoIg.gitIgnore = none ∧ ("vendor" : String) ≠ "." ∧
    sNoIg.excludeDirs.contains "vendor" = true ∧
    walkNode sNoIg "vendor"
      (.dir "vendor" false (.cons (.file "a.go" ['x'] false false) .nil)) =
        Except.ok [] ∧
    walkNode sNoIg "vendor" (.file "vendor" ['x'] false false) = Except.ok [] ∧
    ("vendor_x" : String) = "vendor" ++ "_x" ∧
    sNoIg.excludeDirs.contains "vendor_x" = false ∧
    walkNode sNoIg "vendor_x"
      (.dir "vendor_x" false (.cons (.file "a.go" ['x'] false false) .nil)) =
        Except.ok ["r/vendor_x/a.go"] := by
  have h1 := discoverer_exclusion_exact sNoIg "vendor" "vendor"
    (.cons (.file "a.go" ['x'] false false) .nil) ['x'] false rfl (by decide)
  have h2 := discoverer_exclusion_exact sNoIg "vendor_x" "vendor_x"
    (.cons (.file "a.go" ['x'] false false) .nil) ['x'] false rfl (by decide)
  refine ⟨rfl, by decide, by decide, ?_, h1.2 (by decide), rfl, by decide, ?_⟩
  · rw [h1.1]; rfl
  · rw [h2.1]; rfl

/-- C7 (amended): only root validation is fatal — `NewScanner` fails exactly
when the root stat fails or the root is not a directory; the walk callback
never returns an error, so `Scan` always returns a file list with a nil
error; an entry for which the walk itself reports an error is skipped (files
directly, directories with their whole subtree).  The original claim's
assertion that an unreadable file is skipped is refuted separately: an open
failure in the binary check is swallowed by treating the file as
non-binary, so the file is included. -/
theorem scan_fatal_only_root_validation (root : String) (info : RootInfo)
    (exts extra : List String) :
    ((info.statErr = true ∨ info.isDir = false) ↔
      ∃ m, NewScanner root info exts extra = Except.error m) ∧
    (∀ (s : Scanner) (e : EntryInfo) (m : String), scanCallback s e ≠ WalkAction.fail m) ∧
    (∀ (s : Scanner) (rootName : String) (rErr : Bool) (tree : FsForest),
      ∃ l, Scanner.Scan s rootName rErr tree = Except.ok l) ∧
    (∀ (s : Scanner) (rel name : String) (data : List Char) (oErr : Bool),
      walkNode s rel (.file name data true oErr) = Except.ok []) ∧
    (∀ (s : Scanner) (rel name : String) (children : FsForest),
      walkNode s rel (.dir name true children) = Except.ok []) := by
  refine ⟨⟨?_, ?_⟩, scanCallback_ne_fail, ?_, ?_, ?_⟩
  · rintro (h | h)
    · exact ⟨"stat root failed", by simp [NewScanner, h]⟩
    · cases hs : info.statErr with
      | true => exact ⟨"stat root failed", by simp [NewScanner, hs]⟩
      | false => exact ⟨"root is not a directory", by simp [NewScanner, hs, h]⟩
  · rintro ⟨m, hm⟩
    by_contra hno
    push_neg at hno
    obtain ⟨h1, h2⟩ := hno
    have h1' : info.statErr = false := by simpa using h1
    have h2' : info.isDir = true := by simpa using h2
    simp [NewScanner, h1', h2'] at hm
  · intro s rootName rErr tree
    unfold Scanner.Scan
    cases hcb : scanCallback s ⟨".", rootName, true, false, rErr, [], false⟩ with
    | fail m => exact absurd hcb (scanCallback_ne_fail s _ m)
    | skipDir => exact ⟨[], by simp⟩
    | keep =>
      cases rErr with
      | true => exact ⟨[], by simp⟩
      | false =>
        obtain ⟨l, hl⟩ := walkList_ok s "" tree
        exact ⟨l, by simp [hl]⟩
    | skip =>
      cases rErr with
      | true => exact ⟨[], by simp⟩
      | false =>
        obtain ⟨l, hl⟩ := walkList_ok s "" tree
        exact ⟨l, by simp [hl]⟩
  · intro s rel name data oErr
    simp [walkNode, scanCallback]
  · intro s rel name children
    cases hcb : scanCallback s ⟨rel, name, true, false, false, [], false⟩ with
    | fail m => exact absurd hcb (scanCallback_ne_fail s _ m)
    | skipDir => simp [walkNode, hcb]
    | keep =>
      simp only [walkNode, hcb, if_true]
      simp [scanCallback]
    | skip =>
      simp only [walkNode, hcb, if_true]
      simp [scanCallback]

/-- C7 witness: a root whose stat fails makes `NewScanner` fail, while any
scan of a constructed scanner succeeds. -/
theorem scan_fatal_only_root_validation_witness :
    (∃ m, NewScanner "root" ⟨true, true, none⟩ ["go"] [] = Except.error m) ∧
    (∃ l, Scanner.Scan sNoIg "r" false .nil = Except.ok l) ∧
    walkNode sNoIg "bad" (.file "bad.go" ['x'] true false) = Except.ok [] := by
  have h := scan_fatal_only_root_validation "root" ⟨true, true, none⟩ ["go"] []
  exact ⟨h.1.mp (Or.inl rfl), h.2.2.1 sNoIg "r" false .nil,
    h.2.2.2.1 sNoIg "bad" "bad.go" ['x'] false⟩

/-- C7 counterexample: a whitelisted file whose open fails during the
binary-content check (the second return value of `isBinaryFile` reports the
error) is nevertheless included in the scan result — the entry is not
skipped, contrary to the claim that every per-entry I/O error leads to the
entry being skipped. -/
theorem unreadable_file_included_not_skipped :
    (∃ sc, NewScanner "root" ⟨false, true, none⟩ ["go"] [] = Except.ok sc ∧
      Scanner.Scan sc "r" false (.cons (.file "a.go" ['x'] false true) .nil) =
        Except.ok ["root/a.go"]) ∧
    (isBinaryFile ['x'] true).2 = true :=
  ⟨⟨_, rfl, rfl⟩, rfl⟩

/-- C10: scanning behaves identically whether the extension whitelist is
given as "go", ".go" or ".GO": `NewScanner` prepends the missing dot and
lower-cases each entry, producing the same scanner and hence the same file
list on every tree. -/
theorem extension_normalization_invariance (root : String) (info : RootInfo)
    (extra : List String) (rootName : String) (rErr : Bool) (tree : FsForest) :
    NewScanner root info ["go"] extra = NewScanner root info [".go"] extra ∧
    NewScanner root info [".GO"] extra = NewScanner root info [".go"] extra ∧
    (NewScanner root info ["go"] extra).map
        (fun sc => Scanner.Scan sc rootName rErr tree) =
      (NewScanner root info [".go"] extra).map
        (fun sc => Scanner.Scan sc rootName rErr tree) ∧
    (NewScanner root info [".GO"] extra).map
        (fun sc => Scanner.Scan sc rootName rErr tree) =
      (NewScanner root info [".go"] extra).map
        (fun sc => Scanner.Scan sc rootName rErr tree) :=
  ⟨rfl, rfl, rfl, rfl⟩

end scanner

end GoAiReview
